import Mathlib

/-!
Verification of the SonarLink PC audio bridge (src/pc/server.py).

The Python functions relevant to the claims are embedded shallowly:
byte strings become lists of naturals (each byte a value below 256),
device and host-API names become lists of characters, and the struct
pack/unpack pair becomes explicit little-endian arithmetic.
-/

namespace SonarLink

/-- Wire magic of the outbound audio bridge, the byte string PCM1. -/
def MAGIC : List Nat := [80, 67, 77, 49]

/-- Wire magic of the inbound mic bridge, the byte string MIC1. -/
def MIC_MAGIC : List Nat := [77, 73, 67, 49]

/-- The fields carried by the 16-byte wire header, as produced by
struct.unpack of the format 4sIHHI. -/
structure Header where
  magic : List Nat
  sampleRate : Nat
  channels : Nat
  bitsPerSample : Nat
  blockFrames : Nat
deriving Repr, DecidableEq

/-- A header is valid when the magic is four bytes and every numeric
field fits the width struct.pack gives it (I is u32, H is u16). -/
def validHeader (h : Header) : Prop :=
  h.magic.length = 4 ∧ (∀ b ∈ h.magic, b < 256) ∧
  h.sampleRate < 4294967296 ∧ h.channels < 65536 ∧
  h.bitsPerSample < 65536 ∧ h.blockFrames < 4294967296

/-- Little-endian encoding of a 16-bit value, as struct.pack H emits it. -/
def le16 (n : Nat) : List Nat := [n % 256, n / 256 % 256]

/-- Little-endian encoding of a 32-bit value, as struct.pack I emits it. -/
def le32 (n : Nat) : List Nat :=
  [n % 256, n / 256 % 256, n / 65536 % 256, n / 16777216 % 256]

/-- struct.pack with format 4sIHHI: magic bytes, then sampleRate:u32,
channels:u16, bitsPerSample:u16, blockFrames:u32, all little-endian. -/
def encodeHeader (h : Header) : List Nat :=
  h.magic ++ le32 h.sampleRate ++ le16 h.channels ++
    le16 h.bitsPerSample ++ le32 h.blockFrames

/-- Reads a little-endian 16-bit value from the front of a byte list. -/
def rd16 : List Nat → Nat
  | b0 :: b1 :: _ => b0 + 256 * b1
  | _ => 0

/-- Reads a little-endian 32-bit value from the front of a byte list. -/
def rd32 : List Nat → Nat
  | b0 :: b1 :: b2 :: b3 :: _ => b0 + 256 * b1 + 65536 * b2 + 16777216 * b3
  | _ => 0

/-- struct.unpack with format 4sIHHI on a 16-byte buffer, as the mic
bridge performs it on the received header. -/
def decodeHeader (bs : List Nat) : Option Header :=
  if bs.length = 16 then
    some ⟨bs.take 4, rd32 (bs.drop 4), rd16 (bs.drop 8),
      rd16 (bs.drop 10), rd32 (bs.drop 12)⟩
  else none

/-- The three handshake checks of stream_mic_bridge, in source order:
magic must equal MIC1, bits must equal 16, channels must be positive.
Each failing check raises RuntimeError in the source; here it returns
the corresponding error message. -/
def validateMicHeader (h : Header) : Except String Unit :=
  if h.magic ≠ MIC_MAGIC then .error "Mic bridge encabezado invalido"
  else if h.bitsPerSample ≠ 16 then .error "Mic bridge solo soporta PCM 16-bit"
  else if h.channels ≤ 0 then .error "Mic bridge canales invalidos"
  else .ok ()

/-- mono16_to_stereo from server.py: empty input is returned as is, an
odd trailing byte is dropped, then the indexed loop writes bytes
lo, hi, lo, hi for the pair at positions 2*i and 2*i+1 of the input
into positions 4*i .. 4*i+3 of the output. -/
def mono16_to_stereo (data : List Nat) : List Nat :=
  if data = [] then data
  else
    let d := if data.length % 2 = 1 then data.dropLast else data
    (List.range (d.length / 2)).flatMap
      (fun i => [d.getD (2 * i) 0, d.getD (2 * i + 1) 0,
                 d.getD (2 * i) 0, d.getD (2 * i + 1) 0])

/-- The duplication the spec describes: each two-byte sample of a
PCM16LE mono stream repeated into both stereo channels. -/
def stereoSpec : List Nat → List Nat
  | lo :: hi :: rest => lo :: hi :: lo :: hi :: stereoSpec rest
  | _ => []

/-- Frame size in bytes of the inbound stream, as stream_mic_bridge
computes it: channels times bits divided by 8. -/
def frameSize (channels bits : Nat) : Nat := channels * (bits / 8)

/-- The STREAMING loop of stream_mic_bridge, run over a list of
received chunks: each chunk is appended to the carry, the longest
frame-aligned prefix of the result is written to the output stream, and
the remainder becomes the new carry. The first component collects all
written bytes in order, taken before the optional mono to stereo
duplication, as the source takes them from the payload. -/
def micRechunkStep (fs : Nat) (acc : List Nat × List Nat) (chunk : List Nat) :
    List Nat × List Nat :=
  let payload := acc.2 ++ chunk
  let aligned := payload.length - payload.length % fs
  (acc.1 ++ payload.take aligned, payload.drop aligned)

/-- The whole STREAMING loop, started from an empty carry and an empty
write log. -/
def micBridgeRechunk (fs : Nat) (chunks : List (List Nat)) : List Nat × List Nat :=
  chunks.foldl (micRechunkStep fs) ([], [])

/-- The capture callback's enqueue from stream_sounddevice on a queue
of capacity 64: put_nowait, and when the queue is full, get_nowait the
oldest element and put_nowait again; that second put is also guarded in
the source, so it is modelled by a second capacity test. Every branch
returns immediately, so the producer never blocks. -/
def callbackPush {α : Type} (q : List α) (d : α) : List α :=
  if q.length < 64 then q ++ [d]
  else
    let q2 := q.drop 1
    if q2.length < 64 then q2 ++ [d] else q2

/-- Sequential enqueue of a whole list of captured frames into an
initially empty queue, oldest first. -/
def callbackPushAll {α : Type} (frames : List α) : List α :=
  frames.foldl callbackPush []

/-- read_exact from server.py, driven by the schedule of successive
recv results: while bytes remain to be read, recv returns the next
chunk of the schedule; an empty chunk, or an exhausted schedule, models
the peer having closed the connection, on which the function returns
none; otherwise the chunk is accumulated and its length subtracted from
the remaining count. -/
def read_exact (size : Nat) (recvs : List (List Nat)) : Option (List Nat) :=
  match size, recvs with
  | 0, _ => some []
  | _ + 1, [] => none
  | r + 1, c :: rest =>
    if c = [] then none
    else
      match read_exact (r + 1 - c.length) rest with
      | some bs => some (c ++ bs)
      | none => none

/-- A recv schedule is admissible for a requested size when no recv
result is larger than the count requested at that point, which the
socket recv contract guarantees. -/
def okSchedule : Nat → List (List Nat) → Bool
  | 0, _ => true
  | _ + 1, [] => true
  | r + 1, c :: rest => decide (c.length ≤ r + 1) && okSchedule (r + 1 - c.length) rest

/-- The bytes the peer delivers before closing: the chunks up to the
first empty recv result. -/
def deliveredBeforeClose (recvs : List (List Nat)) : List Nat :=
  (recvs.takeWhile (fun c => !c.isEmpty)).flatten

/-- np.clip of one sample to the interval from -1 to 1. The float32
arithmetic of the source is modelled by exact rational arithmetic. -/
def clip1 (x : ℚ) : ℚ := min 1 (max (-1) x)

/-- Truncation toward zero, as the numpy cast from float to int16
rounds. -/
def truncTowardZero (q : ℚ) : Int := if 0 ≤ q then ⌊q⌋ else ⌈q⌉

/-- The per-sample conversion of float_to_pcm16: clip to the interval
from -1 to 1, scale by 32767, truncate to an integer. -/
def float_to_pcm16_samples (xs : List ℚ) : List Int :=
  xs.map (fun x => truncTowardZero (clip1 x * 32767))

/-- Little-endian two's-complement byte pair of one 16-bit sample, as
astype to little-endian int16 followed by tobytes lays it out. -/
def int16le (v : Int) : List Nat :=
  [(v % 65536).toNat % 256, (v % 65536).toNat / 256]

/-- float_to_pcm16 from server.py over a list of rational samples:
clip, scale by 32767, truncate, serialize little-endian. -/
def float_to_pcm16 (xs : List ℚ) : List Nat :=
  (float_to_pcm16_samples xs).flatMap int16le

/-- Whether the first list starts the second, character by character. -/
def startsWithStr : List Char → List Char → Bool
  | [], _ => true
  | _ :: _, [] => false
  | a :: as, b :: bs => a == b && startsWithStr as bs

/-- Whether the needle occurs contiguously inside the haystack: the
Python in operator on strings. -/
def containsStr : List Char → List Char → Bool
  | needle, [] => startsWithStr needle []
  | needle, b :: t => startsWithStr needle (b :: t) || containsStr needle t

/-- Python str.lower on the ASCII device names involved. -/
def lowerName (s : List Char) : List Char := s.map Char.toLower

/-- The VB_CABLE_HINTS tuple of server.py. -/
def VB_CABLE_HINTS : List (List Char) :=
  ["cable input".toList, "vb-audio".toList, "virtual cable".toList]

/-- The PREFERRED_MIC_OUTPUT_HINTS tuple of server.py. -/
def PREFERRED_MIC_OUTPUT_HINTS : List (List Char) :=
  ["cable input".toList, "vb-audio virtual c".toList,
   "vb-audio virtual cable".toList]

/-- _is_virtual_cable_name from server.py: the lowercased name contains
one of the virtual-cable hints. -/
def _is_virtual_cable_name (name : List Char) : Bool :=
  VB_CABLE_HINTS.any (fun hint => containsStr hint (lowerName name))

/-- _normalize_name from server.py: lowercase, replace every
non-alphanumeric character by a space, then collapse whitespace runs
and trim by splitting into words and rejoining with single spaces. -/
def _normalize_name (name : List Char) : List Char :=
  List.intercalate [' ']
    (((name.map (fun ch => if ch.isAlphanum then ch.toLower else ' ')).splitOn ' ').filter
      (fun w => w ≠ []))

/-- One entry of the sounddevice device table, carrying the fields the
mic output resolver consults; hostApiName is the name query_hostapis
reports for the device's host API. The device's index is its position
in the enumeration, as sounddevice assigns it. -/
structure SDDevice where
  name : List Char
  hostApiName : List Char
  maxInputChannels : Nat
  maxOutputChannels : Nat
deriving Repr, DecidableEq

/-- The score resolve_mic_output_device assigns to one output-capable
device, summing the bonuses and penalties in source order. -/
def micOutputScore (dev : SDDevice) : Int :=
  (if PREFERRED_MIC_OUTPUT_HINTS.all
      (fun hint => containsStr hint (lowerName dev.name)) then 250 else 0)
  + (if containsStr ("cable input".toList) (lowerName dev.name) then 180 else 0)
  + (if containsStr ("vb-audio".toList) (lowerName dev.name) ||
        containsStr ("virtual cable".toList) (lowerName dev.name) then 100 else 0)
  + (if containsStr ("mme".toList) (lowerName dev.hostApiName) then 40 else 0)
  - (if containsStr ("cable output".toList) (lowerName dev.name) then 160 else 0)
  - (if containsStr ("16ch".toList) (lowerName dev.name) then 20 else 0)

/-- The scored output candidates of resolve_mic_output_device, built in
enumeration order starting at index i: one (score, index) pair per
device with at least one output channel. -/
def outputCandidatesFrom (i : Nat) : List SDDevice → List (Int × Nat)
  | [] => []
  | dev :: rest =>
    if 0 < dev.maxOutputChannels
    then (micOutputScore dev, i) :: outputCandidatesFrom (i + 1) rest
    else outputCandidatesFrom (i + 1) rest

/-- All scored output candidates of the enumeration. -/
def outputCandidates (devices : List SDDevice) : List (Int × Nat) :=
  outputCandidatesFrom 0 devices

/-- The head of the candidate list after sorting in reverse: the
lexicographically greatest (score, index) pair. Candidates carry
distinct indices, so this maximum is unique and the sort's stability is
immaterial. -/
def bestCandidate : List (Int × Nat) → Option (Int × Nat)
  | [] => none
  | c :: rest =>
    match bestCandidate rest with
    | none => some c
    | some b => if b.1 < c.1 ∨ (b.1 = c.1 ∧ b.2 < c.2) then some c else some b

/-- The final fallback loop of resolve_mic_output_device: the index of
the first device with at least one output channel, scanning from
position i. -/
def firstOutputIndexFrom (i : Nat) : List SDDevice → Option Nat
  | [] => none
  | dev :: rest =>
    if 0 < dev.maxOutputChannels then some i else firstOutputIndexFrom (i + 1) rest

/-- The tail of resolve_mic_output_device, reached when no candidate
scores above zero: return the system default output if it is
output-capable, else the first output-capable device, else raise.
defaultOut is the index sd.default.device reports for the system
default output, none when absent; an out-of-range default index models
the query_devices exception. -/
def micOutputFallback (devices : List SDDevice) (defaultOut : Option Nat) :
    Except String Nat :=
  match defaultOut with
  | some i =>
    match devices.get? i with
    | some dev =>
        if 0 < dev.maxOutputChannels then .ok i
        else
          match firstOutputIndexFrom 0 devices with
          | some j => .ok j
          | none => .error "No se encontro dispositivo de salida para puente de microfono."
    | none => .error "query_devices: indice fuera de rango"
  | none =>
    match firstOutputIndexFrom 0 devices with
    | some j => .ok j
    | none => .error "No se encontro dispositivo de salida para puente de microfono."

/-- resolve_mic_output_device from server.py with no explicit device
argument: score the output-capable devices, return the best index when
its score is positive, otherwise fall back. The source raises
RuntimeError on the no-output-device path; failures are modelled as
errors. -/
def resolve_mic_output_device (devices : List SDDevice) (defaultOut : Option Nat) :
    Except String Nat :=
  match bestCandidate (outputCandidates devices) with
  | some b => if 0 < b.1 then .ok b.2 else micOutputFallback devices defaultOut
  | none => micOutputFallback devices defaultOut

/-- One soundcard microphone entry: its name and whether it is a
loopback capture of an output device. -/
structure SCMic where
  name : List Char
  isloopback : Bool
deriving Repr, DecidableEq

/-- resolve_soundcard_mic from server.py with no explicit device
argument. defaultOutputName carries the name of the system default
output device, none when sd reports no default (the source's exception
path also leaves the match unset). The source raises when the
enumeration is empty; that is modelled as none. -/
def resolve_soundcard_mic (microphones : List SCMic)
    (defaultOutputName : Option (List Char)) : Option SCMic :=
  if microphones = [] then none
  else
    let loopbacks := microphones.filter (fun m => m.isloopback)
    if loopbacks = [] then microphones.head?
    else
      let matched : Option SCMic :=
        match defaultOutputName with
        | none => none
        | some dn =>
          loopbacks.find? (fun (cand : SCMic) =>
            decide (_normalize_name dn ≠ []) &&
            (containsStr (_normalize_name dn) (_normalize_name cand.name) ||
             containsStr (_normalize_name cand.name) (_normalize_name dn)))
      match matched with
      | some m => some m
      | none =>
        match loopbacks.filter (fun (m : SCMic) => !_is_virtual_cable_name m.name) with
        | m :: _ => some m
        | [] => loopbacks.head?

/-! ## Theorems -/

theorem stereo_core (d : List Nat) (hd : d.length % 2 = 0) :
    (List.range (d.length / 2)).flatMap
      (fun i => [d.getD (2 * i) 0, d.getD (2 * i + 1) 0,
                 d.getD (2 * i) 0, d.getD (2 * i + 1) 0])
    = stereoSpec d := by
  induction d using stereoSpec.induct with
  | case1 lo hi rest ih =>
    have hr : rest.length % 2 = 0 := by
      simp only [List.length_cons] at hd; omega
    have hlen : (lo :: hi :: rest).length / 2 = rest.length / 2 + 1 := by
      simp only [List.length_cons]; omega
    rw [hlen, List.range_succ_eq_map]
    simp only [List.flatMap_cons, List.flatMap_map]
    have hfun :
        ((List.range (rest.length / 2)).flatMap fun a =>
          [(lo :: hi :: rest).getD (2 * a.succ) 0,
           (lo :: hi :: rest).getD (2 * a.succ + 1) 0,
           (lo :: hi :: rest).getD (2 * a.succ) 0,
           (lo :: hi :: rest).getD (2 * a.succ + 1) 0])
        = (List.range (rest.length / 2)).flatMap
            (fun i => [rest.getD (2 * i) 0, rest.getD (2 * i + 1) 0,
                       rest.getD (2 * i) 0, rest.getD (2 * i + 1) 0]) := by
      apply List.flatMap_congr
      intro i _
      have h2 : 2 * Nat.succ i = 2 * i + 1 + 1 := by omega
      simp [h2, List.getD_cons_succ]
    rw [hfun, ih hr]
    simp [stereoSpec, List.getD]
  | case2 x hx =>
    match x, hx with
    | [], _ => simp [stereoSpec]
    | [a], _ => simp at hd
    | a :: b :: rest, hx => exact absurd rfl (fun hc => hx a b rest hc)

theorem stereoSpec_length (d : List Nat) (hd : d.length % 2 = 0) :
    (stereoSpec d).length = 2 * d.length := by
  induction d using stereoSpec.induct with
  | case1 lo hi rest ih =>
    have hr : rest.length % 2 = 0 := by
      simp only [List.length_cons] at hd; omega
    simp only [stereoSpec, List.length_cons, ih hr]
    omega
  | case2 x hx =>
    match x, hx with
    | [], _ => simp [stereoSpec]
    | [a], _ => simp at hd
    | a :: b :: rest, hx => exact absurd rfl (fun hc => hx a b rest hc)

/-- C5: on every even-length PCM16LE mono byte string, mono16_to_stereo
duplicates each two-byte sample into both stereo channels, and the
output is exactly twice as long as the input. -/
theorem mono16_to_stereo_duplicates (data : List Nat)
    (hd : data.length % 2 = 0) :
    mono16_to_stereo data = stereoSpec data ∧
    (mono16_to_stereo data).length = 2 * data.length := by
  have hmain : mono16_to_stereo data = stereoSpec data := by
    by_cases hnil : data = []
    · subst hnil; simp [mono16_to_stereo, stereoSpec]
    · simp only [mono16_to_stereo, if_neg hnil]
      rw [if_neg (by omega)]
      exact stereo_core data hd
  exact ⟨hmain, by rw [hmain]; exact stereoSpec_length data hd⟩

/-- Witness for C5 at the concrete input [1, 2, 3, 4]. -/
theorem mono16_to_stereo_duplicates_witness :
    ([1, 2, 3, 4] : List Nat).length % 2 = 0 ∧
    (mono16_to_stereo [1, 2, 3, 4] = stereoSpec [1, 2, 3, 4] ∧
     (mono16_to_stereo [1, 2, 3, 4]).length = 2 * ([1, 2, 3, 4] : List Nat).length) :=
  ⟨by decide, mono16_to_stereo_duplicates [1, 2, 3, 4] (by decide)⟩

/-- C2: decoding the 16-byte little-endian encoding of any valid header
returns that header unchanged. -/
theorem decode_encode_header (h : Header) (hv : validHeader h) :
    decodeHeader (encodeHeader h) = some h := by
  obtain ⟨magic, sr, ch, bits, bf⟩ := h
  obtain ⟨hm, -, hsr, hch, hb, hbf⟩ := hv
  simp only at hm hsr hch hb hbf
  rcases magic with - | ⟨m0, - | ⟨m1, - | ⟨m2, - | ⟨m3, - | ⟨m4, t⟩⟩⟩⟩⟩ <;>
    simp only [List.length_cons, List.length_nil] at hm <;> try omega
  simp only [encodeHeader, decodeHeader, le16, le32, List.cons_append,
    List.nil_append, List.length_cons, List.length_nil, List.take, List.drop,
    rd16, rd32, if_true]
  norm_num
  refine ⟨?_, ?_, ?_, ?_⟩ <;> omega

/-- Witness for C2 at a concrete valid header. -/
theorem decode_encode_header_witness :
    validHeader ⟨MIC_MAGIC, 48000, 1, 16, 960⟩ ∧
    decodeHeader (encodeHeader ⟨MIC_MAGIC, 48000, 1, 16, 960⟩) =
      some ⟨MIC_MAGIC, 48000, 1, 16, 960⟩ :=
  ⟨by constructor <;> simp [MIC_MAGIC],
   decode_encode_header _ (by constructor <;> simp [MIC_MAGIC])⟩

/-- C3: the mic-bridge handshake rejects a decoded header exactly when
the magic differs from MIC1, or bitsPerSample is not 16, or channels is
zero; every header passing all three checks is accepted. -/
theorem validateMicHeader_error_iff (h : Header) :
    (∃ e, validateMicHeader h = .error e) ↔
      (h.magic ≠ MIC_MAGIC ∨ h.bitsPerSample ≠ 16 ∨ h.channels = 0) := by
  unfold validateMicHeader
  split_ifs with h1 h2 h3
  · exact iff_of_true ⟨_, rfl⟩ (Or.inl h1)
  · exact iff_of_true ⟨_, rfl⟩ (Or.inr (Or.inl h2))
  · exact iff_of_true ⟨_, rfl⟩ (Or.inr (Or.inr (by omega)))
  · constructor
    · rintro ⟨e, he⟩; cases he
    · intro hbad
      rcases hbad with hbad | hbad | hbad
      · exact absurd hbad h1
      · exact absurd hbad h2
      · exact absurd (by omega : h.channels ≤ 0) h3

theorem rechunk_foldl_general (fs : Nat) (hfs : 0 < fs) :
    ∀ (chunks : List (List Nat)) (w c : List Nat), c.length < fs →
    chunks.foldl (micRechunkStep fs) (w, c)
    = (w ++ (c ++ chunks.flatten).take
          ((c ++ chunks.flatten).length - (c ++ chunks.flatten).length % fs),
       (c ++ chunks.flatten).drop
          ((c ++ chunks.flatten).length - (c ++ chunks.flatten).length % fs)) := by
  intro chunks
  induction chunks with
  | nil =>
    intro w c hc
    simp only [List.foldl_nil, List.flatten_nil, List.append_nil,
      Nat.mod_eq_of_lt hc, Nat.sub_self, List.take_zero, List.drop_zero]
  | cons d rest ih =>
    intro w c hc
    have happ : micRechunkStep fs (w, c) d
        = (w ++ (c ++ d).take ((c ++ d).length - (c ++ d).length % fs),
           (c ++ d).drop ((c ++ d).length - (c ++ d).length % fs)) := rfl
    rw [List.foldl_cons, happ]
    have hmlt := Nat.mod_lt (c ++ d).length hfs
    have hmle := Nat.mod_le (c ++ d).length fs
    have hc2 : ((c ++ d).drop ((c ++ d).length - (c ++ d).length % fs)).length < fs := by
      rw [List.length_drop]
      omega
    rw [ih _ _ hc2]
    have hlen_take : ((c ++ d).take ((c ++ d).length - (c ++ d).length % fs)).length
        = (c ++ d).length - (c ++ d).length % fs := by
      rw [List.length_take]
      omega
    have hq : (c ++ d).length - (c ++ d).length % fs = fs * ((c ++ d).length / fs) := by
      have hdm := Nat.div_add_mod (c ++ d).length fs
      omega
    have hfl : c ++ (d :: rest).flatten
        = (c ++ d).take ((c ++ d).length - (c ++ d).length % fs) ++
          ((c ++ d).drop ((c ++ d).length - (c ++ d).length % fs) ++ rest.flatten) := by
      rw [List.flatten_cons, ← List.append_assoc, ← List.append_assoc,
        List.take_append_drop]
    have hmod_eq : (c ++ (d :: rest).flatten).length % fs
        = ((c ++ d).drop ((c ++ d).length - (c ++ d).length % fs) ++ rest.flatten).length % fs := by
      rw [hfl, List.length_append, hlen_take, hq, Nat.mul_add_mod]
    have hA : (c ++ (d :: rest).flatten).length - (c ++ (d :: rest).flatten).length % fs
        = ((c ++ d).take ((c ++ d).length - (c ++ d).length % fs)).length +
          (((c ++ d).drop ((c ++ d).length - (c ++ d).length % fs) ++ rest.flatten).length -
           ((c ++ d).drop ((c ++ d).length - (c ++ d).length % fs) ++ rest.flatten).length % fs) := by
      rw [hmod_eq, hfl, List.length_append]
      have := Nat.mod_le
        ((c ++ d).drop ((c ++ d).length - (c ++ d).length % fs) ++ rest.flatten).length fs
      omega
    rw [hA]
    rw [hfl, List.take_append, List.drop_append, List.append_assoc]

/-- C1: for every positive channel count and every splitting of a byte
stream into received chunks of arbitrary sizes, the mic-bridge
re-chunking loop, starting from an empty carry, writes across all
writes concatenated (taken before any mono to stereo duplication)
exactly the stream truncated to the largest multiple of the frame size
channels times two, and retains exactly the remaining bytes as carry. -/
theorem micBridgeRechunk_exact (channels : Nat) (hch : 0 < channels)
    (chunks : List (List Nat)) :
    micBridgeRechunk (frameSize channels 16) chunks =
      (chunks.flatten.take
         (chunks.flatten.length - chunks.flatten.length % frameSize channels 16),
       chunks.flatten.drop
         (chunks.flatten.length - chunks.flatten.length % frameSize channels 16)) := by
  have hfs : 0 < frameSize channels 16 := by
    simp only [frameSize]
    omega
  have h := rechunk_foldl_general (frameSize channels 16) hfs chunks [] []
    (by simpa using hfs)
  simpa [micBridgeRechunk] using h

/-- Witness for C1: one channel, the six-byte stream split as 1 then 2
then 3 bytes. -/
theorem micBridgeRechunk_exact_witness :
    0 < 1 ∧
    micBridgeRechunk (frameSize 1 16) [[1], [2, 3], [4, 5, 6]] =
      (([[1], [2, 3], [4, 5, 6]] : List (List Nat)).flatten.take
         (([[1], [2, 3], [4, 5, 6]] : List (List Nat)).flatten.length -
          ([[1], [2, 3], [4, 5, 6]] : List (List Nat)).flatten.length % frameSize 1 16),
       ([[1], [2, 3], [4, 5, 6]] : List (List Nat)).flatten.drop
         (([[1], [2, 3], [4, 5, 6]] : List (List Nat)).flatten.length -
          ([[1], [2, 3], [4, 5, 6]] : List (List Nat)).flatten.length % frameSize 1 16)) :=
  ⟨by decide, micBridgeRechunk_exact 1 (by decide) [[1], [2, 3], [4, 5, 6]]⟩

theorem callbackPush_foldl_general {α : Type} :
    ∀ (frames : List α) (q : List α), q.length ≤ 64 →
    frames.foldl callbackPush q = (q ++ frames).drop ((q ++ frames).length - 64) := by
  intro frames
  induction frames with
  | nil =>
    intro q hq
    simp only [List.foldl_nil, List.append_nil]
    rw [Nat.sub_eq_zero_of_le hq, List.drop_zero]
  | cons d rest ih =>
    intro q hq
    rw [List.foldl_cons]
    by_cases hlt : q.length < 64
    · have hstep : callbackPush q d = q ++ [d] := by
        simp [callbackPush, hlt]
      have hle : (q ++ [d]).length ≤ 64 := by
        simp only [List.length_append, List.length_cons, List.length_nil]
        omega
      rw [hstep, ih (q ++ [d]) hle]
      have hli : (q ++ [d]) ++ rest = q ++ d :: rest := by
        rw [List.append_assoc, List.singleton_append]
      rw [hli]
    · have hq64 : q.length = 64 := by omega
      have h2 : (q.drop 1).length < 64 := by
        rw [List.length_drop]; omega
      have hstep : callbackPush q d = q.drop 1 ++ [d] := by
        simp only [callbackPush, if_neg hlt, if_pos h2]
      have hle : (q.drop 1 ++ [d]).length ≤ 64 := by
        simp only [List.length_append, List.length_drop, List.length_cons,
          List.length_nil]
        omega
      rw [hstep, ih (q.drop 1 ++ [d]) hle]
      have hlist : (q.drop 1 ++ [d]) ++ rest = (q ++ d :: rest).drop 1 := by
        rw [List.drop_append_of_le_length (by omega : 1 ≤ q.length),
          List.append_assoc, List.singleton_append]
      rw [hlist, List.drop_drop]
      congr 1
      simp only [List.length_drop, List.length_append, List.length_cons]
      omega

/-- C4: pushing more than 64 frames sequentially through the capture
callback's enqueue (a total function on every branch, so the producer
never blocks) leaves exactly the 64 most recently pushed frames, in
arrival order. -/
theorem callbackPushAll_keeps_last_64 {α : Type} (frames : List α)
    (hn : 64 < frames.length) :
    callbackPushAll frames = frames.drop (frames.length - 64) ∧
    (callbackPushAll frames).length = 64 := by
  have h := callbackPush_foldl_general frames [] (by simp)
  constructor
  · rw [callbackPushAll, h, List.nil_append]
  · rw [callbackPushAll, h, List.nil_append, List.length_drop]
    omega

/-- Witness for C4 at 65 concrete frames. -/
theorem callbackPushAll_keeps_last_64_witness :
    64 < (List.range 65).length ∧
    (callbackPushAll (List.range 65) = (List.range 65).drop ((List.range 65).length - 64) ∧
     (callbackPushAll (List.range 65)).length = 64) :=
  ⟨by decide, callbackPushAll_keeps_last_64 (List.range 65) (by decide)⟩

/-- C10: under the socket recv contract (no recv result exceeds the
requested count), read_exact returns either exactly size bytes, namely
the first size bytes the peer delivered, or none precisely when the
peer closes the connection before size bytes have arrived; it never
returns a short non-empty result, so a partially transmitted 16-byte
mic-bridge header aborts that connection instead of being parsed. -/
theorem read_exact_all_or_nothing (size : Nat) (recvs : List (List Nat))
    (hok : okSchedule size recvs = true) :
    (∀ bs, read_exact size recvs = some bs →
      bs.length = size ∧ bs = recvs.flatten.take size) ∧
    (read_exact size recvs = none ↔ (deliveredBeforeClose recvs).length < size) := by
  induction recvs generalizing size with
  | nil =>
    cases size with
    | zero =>
      refine ⟨?_, ?_⟩
      · intro bs hbs
        simp only [read_exact, Option.some.injEq] at hbs
        subst hbs
        simp
      · simp [read_exact, deliveredBeforeClose]
    | succ r =>
      refine ⟨?_, ?_⟩
      · intro bs hbs
        simp [read_exact] at hbs
      · simp [read_exact, deliveredBeforeClose]
  | cons c rest ih =>
    cases size with
    | zero =>
      refine ⟨?_, ?_⟩
      · intro bs hbs
        simp only [read_exact, Option.some.injEq] at hbs
        subst hbs
        simp
      · simp [read_exact, deliveredBeforeClose]
    | succ r =>
      by_cases hc : c = []
      · subst hc
        refine ⟨?_, ?_⟩
        · intro bs hbs
          simp [read_exact] at hbs
        · simp [read_exact, deliveredBeforeClose, List.takeWhile_cons]
      · simp only [okSchedule, Bool.and_eq_true, decide_eq_true_eq] at hok
        obtain ⟨hcle, hok2⟩ := hok
        have ihr := ih (r + 1 - c.length) hok2
        have hne : (!c.isEmpty) = true := by
          cases c with
          | nil => exact absurd rfl hc
          | cons a t => rfl
        have hdel : (deliveredBeforeClose (c :: rest)).length
            = c.length + (deliveredBeforeClose rest).length := by
          simp only [deliveredBeforeClose, List.takeWhile_cons, hne, if_true,
            List.flatten_cons, List.length_append]
        refine ⟨?_, ?_⟩
        · intro bs hbs
          simp only [read_exact, if_neg hc] at hbs
          cases hrec : read_exact (r + 1 - c.length) rest with
          | none => rw [hrec] at hbs; cases hbs
          | some bs2 =>
            rw [hrec] at hbs
            simp only [Option.some.injEq] at hbs
            subst hbs
            obtain ⟨hlen2, hbs2⟩ := ihr.1 bs2 hrec
            refine ⟨?_, ?_⟩
            · rw [List.length_append, hlen2]
              omega
            · rw [List.flatten_cons, hbs2,
                List.take_append_eq_append_take, List.take_of_length_le hcle]
        · have hnone_iff : read_exact (r + 1) (c :: rest) = none ↔
              read_exact (r + 1 - c.length) rest = none := by
            simp only [read_exact, if_neg hc]
            cases hrec : read_exact (r + 1 - c.length) rest <;> simp
          rw [hnone_iff, ihr.2, hdel]
          omega

/-- Witness for C10 at size 3 with the peer sending 2 bytes then 1. -/
theorem read_exact_all_or_nothing_witness :
    okSchedule 3 [[1, 2], [3]] = true ∧
    ((∀ bs, read_exact 3 [[1, 2], [3]] = some bs →
      bs.length = 3 ∧ bs = ([[1, 2], [3]] : List (List Nat)).flatten.take 3) ∧
     (read_exact 3 [[1, 2], [3]] = none ↔
      (deliveredBeforeClose [[1, 2], [3]]).length < 3)) :=
  ⟨by decide, read_exact_all_or_nothing 3 [[1, 2], [3]] (by decide)⟩

/-- C9: the poll-based capture conversion clips every sample to the
interval from -1 to 1 and scales by 32767 before the cast to a signed
16-bit integer, so the serialized output carries exactly two bytes per
input sample and every converted sample value lies between -32767 and
32767. The float samples are modelled as exact rationals. -/
theorem float_to_pcm16_bounds (xs : List ℚ) :
    (float_to_pcm16 xs).length = 2 * xs.length ∧
    ∀ v ∈ float_to_pcm16_samples xs, -32767 ≤ v ∧ v ≤ 32767 := by
  refine ⟨?_, ?_⟩
  · rw [float_to_pcm16, List.length_flatMap]
    have hconst : (List.length ∘ int16le) = fun _ : Int => 2 := rfl
    rw [hconst, List.map_const', List.sum_replicate, smul_eq_mul,
      float_to_pcm16_samples, List.length_map]
    omega
  · intro v hv
    rw [float_to_pcm16_samples, List.mem_map] at hv
    obtain ⟨x, -, rfl⟩ := hv
    have hlo : (-1 : ℚ) ≤ clip1 x := le_min (by norm_num) (le_max_left _ _)
    have hhi : clip1 x ≤ 1 := min_le_left _ _
    have hq_lo : (-32767 : ℚ) ≤ clip1 x * 32767 := by nlinarith
    have hq_hi : clip1 x * 32767 ≤ 32767 := by nlinarith
    rw [truncTowardZero]
    split_ifs with hpos
    · refine ⟨?_, ?_⟩
      · have h0 : (0 : Int) ≤ ⌊clip1 x * 32767⌋ := Int.floor_nonneg.mpr hpos
        omega
      · have h1 : (↑⌊clip1 x * 32767⌋ : ℚ) ≤ 32767 :=
          le_trans (Int.floor_le _) hq_hi
        exact_mod_cast h1
    · push_neg at hpos
      refine ⟨?_, ?_⟩
      · have h1 : (-32767 : ℚ) ≤ (↑⌈clip1 x * 32767⌉ : ℚ) :=
          le_trans hq_lo (Int.le_ceil _)
        exact_mod_cast h1
      · have h0 : ⌈clip1 x * 32767⌉ ≤ 0 := Int.ceil_le.mpr (by exact_mod_cast le_of_lt hpos)
        omega

theorem bestCandidate_eq_none :
    ∀ (cands : List (Int × Nat)), bestCandidate cands = none ↔ cands = [] := by
  intro cands
  cases cands with
  | nil => simp [bestCandidate]
  | cons c rest =>
    simp only [bestCandidate]
    constructor
    · intro h
      split at h
      · cases h
      · split at h <;> cases h
    · intro h
      cases h

theorem bestCandidate_mem :
    ∀ (cands : List (Int × Nat)) (b : Int × Nat),
    bestCandidate cands = some b → b ∈ cands := by
  intro cands
  induction cands with
  | nil => intro b h; simp [bestCandidate] at h
  | cons c rest ih =>
    intro b h
    simp only [bestCandidate] at h
    split at h
    · simp only [Option.some.injEq] at h
      subst h
      exact List.mem_cons_self _ _
    · next bb hrec =>
      split at h
      · simp only [Option.some.injEq] at h
        subst h
        exact List.mem_cons_self _ _
      · simp only [Option.some.injEq] at h
        subst h
        exact List.mem_cons_of_mem _ (ih _ hrec)

theorem bestCandidate_score_max :
    ∀ (cands : List (Int × Nat)) (b : Int × Nat),
    bestCandidate cands = some b → ∀ c ∈ cands, c.1 ≤ b.1 := by
  intro cands
  induction cands with
  | nil => intro b h; simp [bestCandidate] at h
  | cons c rest ih =>
    intro b h x hx
    simp only [bestCandidate] at h
    split at h
    · next hrec =>
      simp only [Option.some.injEq] at h
      subst h
      have hrest : rest = [] := (bestCandidate_eq_none rest).mp hrec
      subst hrest
      simp only [List.mem_singleton] at hx
      subst hx
      exact le_refl _
    · next bb hrec =>
      rcases List.mem_cons.mp hx with hx | hx
      · subst hx
        split at h
        · next hcond =>
          simp only [Option.some.injEq] at h
          subst h
          exact le_refl _
        · next hcond =>
          simp only [Option.some.injEq] at h
          subst h
          push_neg at hcond
          exact hcond.1
      · have hxle := ih bb hrec x hx
        split at h
        · next hcond =>
          simp only [Option.some.injEq] at h
          subst h
          rcases hcond with hcond | hcond
          · exact le_of_lt (lt_of_le_of_lt hxle hcond)
          · exact le_trans hxle (le_of_eq hcond.1)
        · next hcond =>
          simp only [Option.some.injEq] at h
          subst h
          exact hxle

theorem outputCandidatesFrom_mem :
    ∀ (devs : List SDDevice) (i : Nat) (c : Int × Nat),
    c ∈ outputCandidatesFrom i devs →
    ∃ k dev, devs.get? k = some dev ∧ 0 < dev.maxOutputChannels ∧
      c = (micOutputScore dev, i + k) := by
  intro devs
  induction devs with
  | nil => intro i c h; simp [outputCandidatesFrom] at h
  | cons d rest ih =>
    intro i c h
    simp only [outputCandidatesFrom] at h
    by_cases hd : 0 < d.maxOutputChannels
    · rw [if_pos hd] at h
      rcases List.mem_cons.mp h with h | h
      · exact ⟨0, d, rfl, hd, by simpa using h⟩
      · obtain ⟨k, dev, hget, ho, hc⟩ := ih (i + 1) c h
        refine ⟨k + 1, dev, by simpa using hget, ho, ?_⟩
        rw [hc, Nat.add_assoc, Nat.add_comm 1 k]
    · rw [if_neg hd] at h
      obtain ⟨k, dev, hget, ho, hc⟩ := ih (i + 1) c h
      refine ⟨k + 1, dev, by simpa using hget, ho, ?_⟩
      rw [hc, Nat.add_assoc, Nat.add_comm 1 k]

theorem outputCandidatesFrom_mem_of_get :
    ∀ (devs : List SDDevice) (i k : Nat) (dev : SDDevice),
    devs.get? k = some dev → 0 < dev.maxOutputChannels →
    (micOutputScore dev, i + k) ∈ outputCandidatesFrom i devs := by
  intro devs
  induction devs with
  | nil => intro i k dev h; simp at h
  | cons d rest ih =>
    intro i k dev hget hout
    cases k with
    | zero =>
      have hd : d = dev := by simpa using hget
      subst hd
      simp only [outputCandidatesFrom, if_pos hout, Nat.add_zero]
      exact List.mem_cons_self _ _
    | succ k =>
      have hget2 : rest.get? k = some dev := by simpa using hget
      have hmem := ih (i + 1) k dev hget2 hout
      have hidx : i + (k + 1) = (i + 1) + k := by omega
      rw [hidx]
      simp only [outputCandidatesFrom]
      by_cases hd : 0 < d.maxOutputChannels
      · rw [if_pos hd]
        exact List.mem_cons_of_mem _ hmem
      · rw [if_neg hd]
        exact hmem

theorem outputCandidatesFrom_eq_nil :
    ∀ (devs : List SDDevice) (i : Nat),
    outputCandidatesFrom i devs = [] ↔ ∀ dev ∈ devs, dev.maxOutputChannels = 0 := by
  intro devs
  induction devs with
  | nil => intro i; simp [outputCandidatesFrom]
  | cons d rest ih =>
    intro i
    simp only [outputCandidatesFrom]
    by_cases hd : 0 < d.maxOutputChannels
    · rw [if_pos hd]
      constructor
      · intro h; cases h
      · intro h
        exact absurd (h d (List.mem_cons_self _ _)) (by omega)
    · rw [if_neg hd]
      rw [ih (i + 1)]
      constructor
      · intro h dev hdev
        rcases List.mem_cons.mp hdev with rfl | hdev
        · omega
        · exact h dev hdev
      · intro h dev hdev
        exact h dev (List.mem_cons_of_mem _ hdev)

theorem firstOutputIndexFrom_eq_none :
    ∀ (devs : List SDDevice) (i : Nat),
    firstOutputIndexFrom i devs = none ↔ ∀ dev ∈ devs, dev.maxOutputChannels = 0 := by
  intro devs
  induction devs with
  | nil => intro i; simp [firstOutputIndexFrom]
  | cons d rest ih =>
    intro i
    simp only [firstOutputIndexFrom]
    by_cases hd : 0 < d.maxOutputChannels
    · rw [if_pos hd]
      constructor
      · intro h; cases h
      · intro h
        exact absurd (h d (List.mem_cons_self _ _)) (by omega)
    · rw [if_neg hd]
      rw [ih (i + 1)]
      constructor
      · intro h dev hdev
        rcases List.mem_cons.mp hdev with rfl | hdev
        · omega
        · exact h dev hdev
      · intro h dev hdev
        exact h dev (List.mem_cons_of_mem _ hdev)

theorem firstOutputIndexFrom_some :
    ∀ (devs : List SDDevice) (i j : Nat),
    firstOutputIndexFrom i devs = some j →
    ∃ k dev, devs.get? k = some dev ∧ 0 < dev.maxOutputChannels ∧ j = i + k := by
  intro devs
  induction devs with
  | nil => intro i j h; simp [firstOutputIndexFrom] at h
  | cons d rest ih =>
    intro i j h
    simp only [firstOutputIndexFrom] at h
    by_cases hd : 0 < d.maxOutputChannels
    · rw [if_pos hd] at h
      simp only [Option.some.injEq] at h
      exact ⟨0, d, rfl, hd, by omega⟩
    · rw [if_neg hd] at h
      obtain ⟨k, dev, hget, ho, hj⟩ := ih (i + 1) j h
      exact ⟨k + 1, dev, by simpa using hget, ho, by omega⟩

theorem micOutputFallback_success (devices : List SDDevice) (defaultOut : Option Nat)
    (hdef : ∀ i, defaultOut = some i → i < devices.length)
    (hex : ∃ dev ∈ devices, 0 < dev.maxOutputChannels) :
    ∃ j dev, micOutputFallback devices defaultOut = Except.ok j ∧
      devices.get? j = some dev ∧ 0 < dev.maxOutputChannels := by
  obtain ⟨dev0, hmem0, hout0⟩ := hex
  cases hfi : firstOutputIndexFrom 0 devices with
  | none =>
    have := (firstOutputIndexFrom_eq_none devices 0).mp hfi dev0 hmem0
    omega
  | some j =>
    obtain ⟨k, dev, hget, ho, hj⟩ := firstOutputIndexFrom_some devices 0 j hfi
    rw [show k = j by omega] at hget
    cases defaultOut with
    | none =>
      exact ⟨j, dev, by simp only [micOutputFallback, hfi], hget, ho⟩
    | some i =>
      have hilt : i < devices.length := hdef i rfl
      obtain ⟨devi, hgeti⟩ : ∃ devi, devices.get? i = some devi := by
        cases hgi : devices.get? i with
        | none => rw [List.get?_eq_none] at hgi; omega
        | some d => exact ⟨d, rfl⟩
      by_cases hdevi : 0 < devi.maxOutputChannels
      · exact ⟨i, devi,
          by simp only [micOutputFallback, hgeti, if_pos hdevi], hgeti, hdevi⟩
      · exact ⟨j, dev,
          by simp only [micOutputFallback, hgeti, if_neg hdevi, hfi], hget, ho⟩

theorem micOutputFallback_error (devices : List SDDevice) (defaultOut : Option Nat)
    (hdef : ∀ i, defaultOut = some i → i < devices.length) :
    (∃ e, micOutputFallback devices defaultOut = Except.error e) ↔
      ∀ dev ∈ devices, dev.maxOutputChannels = 0 := by
  constructor
  · rintro ⟨e, he⟩
    by_contra hnot
    push_neg at hnot
    obtain ⟨dev0, hmem0, h0⟩ := hnot
    obtain ⟨j, dev, hok, -, -⟩ :=
      micOutputFallback_success devices defaultOut hdef ⟨dev0, hmem0, by omega⟩
    rw [hok] at he
    cases he
  · intro hall
    have hfi : firstOutputIndexFrom 0 devices = none :=
      (firstOutputIndexFrom_eq_none devices 0).mpr hall
    cases defaultOut with
    | none =>
      refine ⟨"No se encontro dispositivo de salida para puente de microfono.", ?_⟩
      simp only [micOutputFallback, hfi]
    | some i =>
      have hilt : i < devices.length := hdef i rfl
      obtain ⟨devi, hgeti⟩ : ∃ devi, devices.get? i = some devi := by
        cases hgi : devices.get? i with
        | none => rw [List.get?_eq_none] at hgi; omega
        | some d => exact ⟨d, rfl⟩
      have hdevi : devi.maxOutputChannels = 0 :=
        hall devi (List.get?_mem hgeti)
      have hnpos : ¬0 < devi.maxOutputChannels := by omega
      refine ⟨"No se encontro dispositivo de salida para puente de microfono.", ?_⟩
      simp only [micOutputFallback, hgeti, if_neg hnpos, hfi]

/-- C8: as long as the default-output index is consistent with the
enumeration, resolveMicOutputDevice with no explicit device returns the
index of an output-capable device whenever at least one exists, and
fails exactly when zero output-capable devices exist. -/
theorem resolve_mic_output_device_total (devices : List SDDevice)
    (defaultOut : Option Nat)
    (hdef : ∀ i, defaultOut = some i → i < devices.length) :
    ((∃ dev ∈ devices, 0 < dev.maxOutputChannels) →
      ∃ j dev, resolve_mic_output_device devices defaultOut = Except.ok j ∧
        devices.get? j = some dev ∧ 0 < dev.maxOutputChannels) ∧
    ((∃ e, resolve_mic_output_device devices defaultOut = Except.error e) ↔
      ∀ dev ∈ devices, dev.maxOutputChannels = 0) := by
  have hmain : (∃ dev ∈ devices, 0 < dev.maxOutputChannels) →
      ∃ j dev, resolve_mic_output_device devices defaultOut = Except.ok j ∧
        devices.get? j = some dev ∧ 0 < dev.maxOutputChannels := by
    intro hex
    cases hbest : bestCandidate (outputCandidates devices) with
    | some b =>
      by_cases hpos : (0 : Int) < b.1
      · obtain ⟨k, dev, hget, ho, hc⟩ :=
          outputCandidatesFrom_mem devices 0 b (bestCandidate_mem _ _ hbest)
        refine ⟨b.2, dev, ?_, ?_, ho⟩
        · simp only [resolve_mic_output_device, hbest, if_pos hpos]
        · rw [hc]
          simpa using hget
      · obtain ⟨j, dev, hok, hget, ho⟩ :=
          micOutputFallback_success devices defaultOut hdef hex
        refine ⟨j, dev, ?_, hget, ho⟩
        simp only [resolve_mic_output_device, hbest, if_neg hpos, hok]
    | none =>
      obtain ⟨j, dev, hok, hget, ho⟩ :=
        micOutputFallback_success devices defaultOut hdef hex
      refine ⟨j, dev, ?_, hget, ho⟩
      simp only [resolve_mic_output_device, hbest, hok]
  refine ⟨hmain, ?_, ?_⟩
  · rintro ⟨e, he⟩
    by_contra hnot
    push_neg at hnot
    obtain ⟨dev0, hmem0, h0⟩ := hnot
    obtain ⟨j, dev, hok, -, -⟩ := hmain ⟨dev0, hmem0, by omega⟩
    rw [hok] at he
    cases he
  · intro hall
    have hcnil : outputCandidates devices = [] := by
      rw [outputCandidates, outputCandidatesFrom_eq_nil]
      exact hall
    have hbest : bestCandidate (outputCandidates devices) = none := by
      rw [hcnil]
      rfl
    obtain ⟨e, he⟩ := (micOutputFallback_error devices defaultOut hdef).mpr hall
    exact ⟨e, by simp only [resolve_mic_output_device, hbest, he]⟩

/-- Witness for C8 on a one-device enumeration with no default. -/
theorem resolve_mic_output_device_total_witness :
    (∀ i, (none : Option Nat) = some i →
      i < ([⟨"Speakers".toList, "MME".toList, 0, 2⟩] : List SDDevice).length) ∧
    (((∃ dev ∈ ([⟨"Speakers".toList, "MME".toList, 0, 2⟩] : List SDDevice),
        0 < dev.maxOutputChannels) →
      ∃ j dev, resolve_mic_output_device
          [⟨"Speakers".toList, "MME".toList, 0, 2⟩] none = Except.ok j ∧
        ([⟨"Speakers".toList, "MME".toList, 0, 2⟩] : List SDDevice).get? j = some dev ∧
        0 < dev.maxOutputChannels) ∧
     ((∃ e, resolve_mic_output_device
          [⟨"Speakers".toList, "MME".toList, 0, 2⟩] none = Except.error e) ↔
      ∀ dev ∈ ([⟨"Speakers".toList, "MME".toList, 0, 2⟩] : List SDDevice),
        dev.maxOutputChannels = 0)) :=
  ⟨(by intro i h; cases h),
   resolve_mic_output_device_total [⟨"Speakers".toList, "MME".toList, 0, 2⟩] none
     (by intro i h; cases h)⟩

theorem micOutputScore_cable_input_ge (dev : SDDevice)
    (hname : dev.name = "CABLE Input (VB-Audio Virtual Cable)".toList) :
    (530 : Int) ≤ micOutputScore dev := by
  simp only [micOutputScore, hname]
  have h1 : (if PREFERRED_MIC_OUTPUT_HINTS.all
      (fun hint => containsStr hint
        (lowerName ("CABLE Input (VB-Audio Virtual Cable)".toList)))
      then (250 : Int) else 0) = 250 := by decide
  have h2 : (if containsStr ("cable input".toList)
      (lowerName ("CABLE Input (VB-Audio Virtual Cable)".toList))
      then (180 : Int) else 0) = 180 := by decide
  have h3 : (if containsStr ("vb-audio".toList)
        (lowerName ("CABLE Input (VB-Audio Virtual Cable)".toList)) ||
      containsStr ("virtual cable".toList)
        (lowerName ("CABLE Input (VB-Audio Virtual Cable)".toList))
      then (100 : Int) else 0) = 100 := by decide
  have h5 : (if containsStr ("cable output".toList)
      (lowerName ("CABLE Input (VB-Audio Virtual Cable)".toList))
      then (160 : Int) else 0) = 0 := by decide
  have h6 : (if containsStr ("16ch".toList)
      (lowerName ("CABLE Input (VB-Audio Virtual Cable)".toList))
      then (20 : Int) else 0) = 0 := by decide
  rw [h1, h2, h3, h5, h6]
  split_ifs <;> omega

theorem micOutputScore_le_of_no_cable_input (dev : SDDevice)
    (hno : containsStr ("cable input".toList) (lowerName dev.name) = false) :
    micOutputScore dev ≤ 140 := by
  simp only [micOutputScore]
  have h1 : (if PREFERRED_MIC_OUTPUT_HINTS.all
      (fun hint => containsStr hint (lowerName dev.name))
      then (250 : Int) else 0) = 0 := by
    rw [if_neg]
    intro hall
    simp only [PREFERRED_MIC_OUTPUT_HINTS, List.all_cons, Bool.and_eq_true] at hall
    rw [hall.1] at hno
    simp at hno
  have h2 : (if containsStr ("cable input".toList) (lowerName dev.name)
      then (180 : Int) else 0) = 0 := by
    rw [if_neg]
    rw [hno]
    simp
  rw [h1, h2]
  split_ifs <;> omega

/-- C6 amended: whenever the enumeration contains an output-capable
device named exactly CABLE Input (VB-Audio Virtual Cable) and an
output-capable device named exactly CABLE Output (VB-Audio Virtual
Cable), the resolver with no explicit device returns the index of an
output-capable device whose lowercased name contains the substring
cable input, and in particular never the index of any device named
CABLE Output (VB-Audio Virtual Cable). The returned device need not be
the exact CABLE Input device: another device whose name contains the
same hints can tie or exceed its score, and the reverse sort prefers
the higher index on ties. -/
theorem resolve_mic_output_prefers_cable_input (devices : List SDDevice)
    (defaultOut : Option Nat) (iIn : Nat) (dIn : SDDevice)
    (hgetIn : devices.get? iIn = some dIn)
    (hnameIn : dIn.name = "CABLE Input (VB-Audio Virtual Cable)".toList)
    (houtIn : 0 < dIn.maxOutputChannels)
    (iOut : Nat) (dOut : SDDevice)
    (hgetOut : devices.get? iOut = some dOut)
    (hnameOut : dOut.name = "CABLE Output (VB-Audio Virtual Cable)".toList)
    (houtOut : 0 < dOut.maxOutputChannels) :
    ∃ j dev, resolve_mic_output_device devices defaultOut = Except.ok j ∧
      devices.get? j = some dev ∧ 0 < dev.maxOutputChannels ∧
      containsStr ("cable input".toList) (lowerName dev.name) = true ∧
      ∀ o devO, devices.get? o = some devO →
        devO.name = "CABLE Output (VB-Audio Virtual Cable)".toList → j ≠ o := by
  have hmemIn := outputCandidatesFrom_mem_of_get devices 0 iIn dIn hgetIn houtIn
  cases hbest : bestCandidate (outputCandidates devices) with
  | none =>
    rw [bestCandidate_eq_none, outputCandidates] at hbest
    rw [hbest] at hmemIn
    cases hmemIn
  | some b =>
    have hscore : micOutputScore dIn ≤ b.1 :=
      bestCandidate_score_max _ _ hbest _ hmemIn
    have h530 : (530 : Int) ≤ b.1 :=
      le_trans (micOutputScore_cable_input_ge dIn hnameIn) hscore
    have hpos : (0 : Int) < b.1 := by omega
    obtain ⟨k, dev, hget, ho, hc⟩ :=
      outputCandidatesFrom_mem devices 0 b (bestCandidate_mem _ _ hbest)
    have hb1 : b.1 = micOutputScore dev := by rw [hc]
    have hb2 : b.2 = k := by rw [hc]; simp
    have hci : containsStr ("cable input".toList) (lowerName dev.name) = true := by
      by_contra hciF
      have hfalse : containsStr ("cable input".toList) (lowerName dev.name) = false :=
        Bool.eq_false_iff.mpr hciF
      have := micOutputScore_le_of_no_cable_input dev hfalse
      omega
    have hgetb : devices.get? b.2 = some dev := by
      rw [hb2]
      simpa using hget
    refine ⟨b.2, dev, ?_, hgetb, ho, hci, ?_⟩
    · simp only [resolve_mic_output_device, hbest, if_pos hpos]
    · intro o devO hgetO hnameO heq
      rw [← heq, hgetb] at hgetO
      injection hgetO with hdd
      subst hdd
      rw [hnameO] at hci
      exact absurd hci (by decide)

/-- Counterexample to C6 as stated: a third output device whose name
contains the same hints ties the exact CABLE Input device's score, and
the reverse sort resolves ties toward the higher index, so the resolver
returns index 2 although the device named exactly CABLE Input (VB-Audio
Virtual Cable) sits alone at index 0. -/
theorem resolve_mic_output_counterexample :
    resolve_mic_output_device
      [⟨"CABLE Input (VB-Audio Virtual Cable)".toList, "MME".toList, 0, 2⟩,
       ⟨"CABLE Output (VB-Audio Virtual Cable)".toList, "MME".toList, 0, 2⟩,
       ⟨"ZZ CABLE Input (VB-Audio Virtual Cable)".toList, "MME".toList, 0, 2⟩]
      none = Except.ok 2 ∧
    (∀ i dev,
      ([⟨"CABLE Input (VB-Audio Virtual Cable)".toList, "MME".toList, 0, 2⟩,
        ⟨"CABLE Output (VB-Audio Virtual Cable)".toList, "MME".toList, 0, 2⟩,
        ⟨"ZZ CABLE Input (VB-Audio Virtual Cable)".toList, "MME".toList, 0, 2⟩] :
          List SDDevice).get? i = some dev →
      dev.name = "CABLE Input (VB-Audio Virtual Cable)".toList → i = 0) ∧
    (2 : Nat) ≠ 0 := by
  refine ⟨rfl, ?_, by decide⟩
  intro i dev hget hname
  match i, hget with
  | 0, _ => rfl
  | 1, hget =>
    injection hget with hd
    rw [← hd] at hname
    exact absurd hname (by decide)
  | 2, hget =>
    injection hget with hd
    rw [← hd] at hname
    exact absurd hname (by decide)
  | n + 3, hget => simp at hget

/-- Witness for the amended C6 on the two-device enumeration of the
spec's scenario: the resolver picks the CABLE Input index 0. -/
theorem resolve_mic_output_prefers_cable_input_witness :
    ∃ j dev, resolve_mic_output_device
        [⟨"CABLE Input (VB-Audio Virtual Cable)".toList, "MME".toList, 0, 2⟩,
         ⟨"CABLE Output (VB-Audio Virtual Cable)".toList, "MME".toList, 0, 2⟩]
        none = Except.ok j ∧
      ([⟨"CABLE Input (VB-Audio Virtual Cable)".toList, "MME".toList, 0, 2⟩,
        ⟨"CABLE Output (VB-Audio Virtual Cable)".toList, "MME".toList, 0, 2⟩] :
          List SDDevice).get? j = some dev ∧
      0 < dev.maxOutputChannels ∧
      containsStr ("cable input".toList) (lowerName dev.name) = true ∧
      ∀ o devO,
        ([⟨"CABLE Input (VB-Audio Virtual Cable)".toList, "MME".toList, 0, 2⟩,
          ⟨"CABLE Output (VB-Audio Virtual Cable)".toList, "MME".toList, 0, 2⟩] :
            List SDDevice).get? o = some devO →
        devO.name = "CABLE Output (VB-Audio Virtual Cable)".toList → j ≠ o :=
  resolve_mic_output_prefers_cable_input
    [⟨"CABLE Input (VB-Audio Virtual Cable)".toList, "MME".toList, 0, 2⟩,
     ⟨"CABLE Output (VB-Audio Virtual Cable)".toList, "MME".toList, 0, 2⟩]
    none 0 _ rfl rfl (by decide) 1 _ rfl rfl (by decide)

/-- C7 amended: when at least one loopback device exists and no
loopback's normalized name overlaps (substring in either direction) the
normalized default-output name, resolveMicSourceDevice with no explicit
device returns the first loopback whose name is not a virtual-cable
name; and when every loopback is a virtual-cable device it returns the
first loopback device (the source's loopbacks[0]), which is not in
general the first microphone of the enumeration. -/
theorem resolve_soundcard_mic_no_overlap (microphones : List SCMic) (dn : List Char)
    (hlb : microphones.filter (fun m => m.isloopback) ≠ [])
    (hnov : ∀ c ∈ microphones.filter (fun m => m.isloopback),
      containsStr (_normalize_name dn) (_normalize_name c.name) = false ∧
      containsStr (_normalize_name c.name) (_normalize_name dn) = false) :
    resolve_soundcard_mic microphones (some dn) =
      match (microphones.filter (fun m => m.isloopback)).filter
          (fun m => !_is_virtual_cable_name m.name) with
      | m :: _ => some m
      | [] => (microphones.filter (fun m => m.isloopback)).head? := by
  have hmne : ¬microphones = [] := by
    intro h
    rw [h] at hlb
    simp at hlb
  have hfind : (microphones.filter (fun m => m.isloopback)).find?
      (fun (cand : SCMic) =>
        decide (_normalize_name dn ≠ []) &&
        (containsStr (_normalize_name dn) (_normalize_name cand.name) ||
         containsStr (_normalize_name cand.name) (_normalize_name dn))) = none := by
    rw [List.find?_eq_none]
    intro c hc
    obtain ⟨h1, h2⟩ := hnov c hc
    simp [h1, h2]
  simp only [resolve_soundcard_mic, if_neg hmne, if_neg hlb, hfind]

/-- Counterexample to C7 as stated: the enumeration below has one
loopback device, its normalized name does not overlap the default
output's, and it is a virtual-cable device, yet the resolver returns
that loopback device rather than the first microphone of the
enumeration. -/
theorem resolve_soundcard_mic_counterexample :
    ([⟨"Microphone Array".toList, false⟩,
      ⟨"CABLE Output (VB-Audio Virtual Cable)".toList, true⟩] :
        List SCMic).filter (fun m => m.isloopback) ≠ [] ∧
    (∀ c ∈ ([⟨"Microphone Array".toList, false⟩,
      ⟨"CABLE Output (VB-Audio Virtual Cable)".toList, true⟩] :
        List SCMic).filter (fun m => m.isloopback),
      containsStr (_normalize_name ("Speakers (Realtek Audio)".toList))
        (_normalize_name c.name) = false ∧
      containsStr (_normalize_name c.name)
        (_normalize_name ("Speakers (Realtek Audio)".toList)) = false) ∧
    (∀ c ∈ ([⟨"Microphone Array".toList, false⟩,
      ⟨"CABLE Output (VB-Audio Virtual Cable)".toList, true⟩] :
        List SCMic).filter (fun m => m.isloopback),
      _is_virtual_cable_name c.name = true) ∧
    ([⟨"Microphone Array".toList, false⟩,
      ⟨"CABLE Output (VB-Audio Virtual Cable)".toList, true⟩] :
        List SCMic).head? = some ⟨"Microphone Array".toList, false⟩ ∧
    resolve_soundcard_mic
      [⟨"Microphone Array".toList, false⟩,
       ⟨"CABLE Output (VB-Audio Virtual Cable)".toList, true⟩]
      (some ("Speakers (Realtek Audio)".toList)) =
      some ⟨"CABLE Output (VB-Audio Virtual Cable)".toList, true⟩ ∧
    (⟨"CABLE Output (VB-Audio Virtual Cable)".toList, true⟩ : SCMic) ≠
      ⟨"Microphone Array".toList, false⟩ := by
  decide

/-- Witness for the amended C7: one non-virtual loopback (a stereo mix
device) with a non-overlapping default output name is selected. -/
theorem resolve_soundcard_mic_no_overlap_witness :
    ([⟨"mic a".toList, false⟩, ⟨"Stereo Mix (Realtek)".toList, true⟩] :
        List SCMic).filter (fun m => m.isloopback) ≠ [] ∧
    (∀ c ∈ ([⟨"mic a".toList, false⟩, ⟨"Stereo Mix (Realtek)".toList, true⟩] :
        List SCMic).filter (fun m => m.isloopback),
      containsStr (_normalize_name ("Headphones XYZ".toList))
        (_normalize_name c.name) = false ∧
      containsStr (_normalize_name c.name)
        (_normalize_name ("Headphones XYZ".toList)) = false) ∧
    resolve_soundcard_mic
        [⟨"mic a".toList, false⟩, ⟨"Stereo Mix (Realtek)".toList, true⟩]
        (some ("Headphones XYZ".toList)) =
      match (([⟨"mic a".toList, false⟩, ⟨"Stereo Mix (Realtek)".toList, true⟩] :
          List SCMic).filter (fun m => m.isloopback)).filter
          (fun m => !_is_virtual_cable_name m.name) with
      | m :: _ => some m
      | [] => (([⟨"mic a".toList, false⟩, ⟨"Stereo Mix (Realtek)".toList, true⟩] :
          List SCMic).filter (fun m => m.isloopback)).head? :=
  ⟨by decide, by decide,
   resolve_soundcard_mic_no_overlap
     [⟨"mic a".toList, false⟩, ⟨"Stereo Mix (Realtek)".toList, true⟩]
     ("Headphones XYZ".toList) (by decide) (by decide)⟩

end SonarLink
